import Mathlib

set_option maxHeartbeats 1000000

/-!
Shallow embedding of the markdown deployments parser from `src/app.js`
(`parseMarkdown`, `findNearestCategory`, `splitMarkdownRow`).

Strings are modelled as `List Char`.  The JavaScript regular expressions
used by the parser are modelled by executable functions that implement the
exact backtracking semantics of each concrete pattern.
-/

/-- JavaScript whitespace class: the characters matched by the regex class
`\s` (and stripped by `String.prototype.trim`). -/
def isWS (c : Char) : Bool :=
  c == '\t' || c == '\n' || c == '\x0b' || c == '\x0c' || c == '\r' || c == ' ' ||
  c == ' ' || c == ' ' ||
  c == ' ' || c == ' ' || c == ' ' || c == ' ' ||
  c == ' ' || c == ' ' || c == ' ' || c == ' ' ||
  c == ' ' || c == ' ' || c == ' ' ||
  c == ' ' || c == ' ' || c == ' ' || c == ' ' ||
  c == '　' || c == '﻿'

/-- Characters matched by the regex metacharacter `.` without the `s` flag:
everything except a line terminator. -/
def isDot (c : Char) : Bool :=
  !(c == '\n' || c == '\r' || c == ' ' || c == ' ')

/-- `String.prototype.trim` on a character list. -/
def trim (s : List Char) : List Char :=
  ((s.dropWhile isWS).reverse.dropWhile isWS).reverse

/-- Prepend a character to the first line of an already split tail
(helper for `splitLines`). -/
def consHead (c : Char) : List (List Char) → List (List Char)
  | [] => [[c]]
  | l :: ls => (c :: l) :: ls

/-- `md.split(/\r?\n/)`: split the document into lines at each `\n`,
consuming an immediately preceding `\r` together with it. -/
def splitLines : List Char → List (List Char)
  | [] => [[]]
  | '\r' :: '\n' :: rest => [] :: splitLines rest
  | '\n' :: rest => [] :: splitLines rest
  | c :: rest => consHead c (splitLines rest)

/-- `s.split('|')` on a character list. -/
def splitPipe : List Char → List (List Char)
  | [] => [[]]
  | '|' :: rest => [] :: splitPipe rest
  | c :: rest => consHead c (splitPipe rest)

/-- `row.replace(/^\|/, '')`: drop one leading pipe when present. -/
def stripLeadPipe : List Char → List Char
  | '|' :: rest => rest
  | s => s

/-- `row.replace(/\|\s*$/, '')`: remove the leftmost pipe that is followed
only by whitespace up to the end of the string, together with that
whitespace; leave the string unchanged when there is no such pipe. -/
def stripTrailPipe : List Char → List Char
  | [] => []
  | '|' :: rest => if rest.all isWS then [] else '|' :: stripTrailPipe rest
  | c :: rest => c :: stripTrailPipe rest

/-- `cell.match(/\(([^)]+)\)/)`: the first capture of the first position
where an opening parenthesis is followed by at least one character other
than a closing parenthesis and then a closing parenthesis. -/
def extractParen : List Char → Option (List Char)
  | [] => none
  | '(' :: rest =>
    let run := rest.takeWhile (fun c => c != ')')
    if run.length ≠ 0 ∧ run.length < rest.length then some run
    else extractParen rest
  | _ :: rest => extractParen rest

/-- Raw cells of a table row: strip one leading and one trailing pipe,
split on pipes and trim every cell
(`row.replace(/^\|/, '').replace(/\|\s*$/, '').split('|').map(s => s.trim())`). -/
def rawCells (row : List Char) : List (List Char) :=
  (splitPipe (stripTrailPipe (stripLeadPipe row))).map trim

/-- The `.map((cell, idx) => ...)` pass of `splitMarkdownRow`: at index 2
(the Explorer column) replace the cell by the first parenthesised group
when one exists, otherwise keep the cell. -/
def cleanCells : Nat → List (List Char) → List (List Char)
  | _, [] => []
  | idx, c :: rest =>
    (if idx = 2 then
       match extractParen c with
       | some m => m
       | none => c
     else c) :: cleanCells (idx + 1) rest

/-- `splitMarkdownRow` from `src/app.js`. -/
def splitMarkdownRow (row : List Char) : List (List Char) :=
  cleanCells 0 (rawCells row)

/-- Case-insensitive match of a lowercase ASCII literal against the front
of a string; returns the remainder on success.  (`/i` matching of an ASCII
letter accepts exactly its two cases.) -/
def matchLit : List Char → List Char → Option (List Char)
  | [], s => some s
  | _ :: _, [] => none
  | p :: ps, c :: cs => if c.toLower == p then matchLit ps cs else none

/-- Attempt to match `\|\s*Network\s*\|\s*Address\s*\|` (case-insensitive)
at the start of the given string.  The pattern is deterministic: a pipe is
never whitespace and a letter is never whitespace, so no backtracking can
occur between the pieces. -/
def headerAt (s : List Char) : Bool :=
  match s with
  | '|' :: rest =>
    match matchLit ("network".toList) (rest.dropWhile isWS) with
    | none => false
    | some r1 =>
      match r1.dropWhile isWS with
      | '|' :: r2 =>
        match matchLit ("address".toList) (r2.dropWhile isWS) with
        | none => false
        | some r3 =>
          match r3.dropWhile isWS with
          | '|' :: _ => true
          | _ => false
      | _ => false
  | _ => false

/-- `/\|\s*Network\s*\|\s*Address\s*\|/i.test(line)`: the pattern matches
at some position of the line. -/
def hasHeader : List Char → Bool
  | [] => false
  | c :: rest => headerAt (c :: rest) || hasHeader rest

/-- The lazy group of `\s+(.+?)\s*$` for a fixed start position: the
shortest non-empty prefix of dot-matchable characters whose remainder is
all whitespace, or `none` when no such prefix exists. -/
def lazyDotThenWS : List Char → Option (List Char)
  | [] => none
  | c :: rest =>
    if isDot c then
      if rest.all isWS then some [c]
      else
        match lazyDotThenWS rest with
        | some g => some (c :: g)
        | none => none
    else none

/-- Backtracking over the greedy `\s+`: the reversed consumed whitespace
prefix is tried from longest to shortest (never empty); each attempt runs
the lazy group on the remainder. -/
def tryW : List Char → List Char → Option (List Char)
  | [], _ => none
  | [_], b => lazyDotThenWS b
  | w :: ws, b =>
    match lazyDotThenWS b with
    | some g => some g
    | none => tryW ws (w :: b)

/-- Match `\s+(.+?)\s*$` against the text following the heading hashes,
returning the captured group. -/
def matchHeadingAfter (a : List Char) : Option (List Char) :=
  let p := a.takeWhile isWS
  if p.isEmpty then none
  else tryW p.reverse (a.dropWhile isWS)

/-- `line.match(/^###\s+(.+?)\s*$/)`: the capture group when the line is a
third-level heading. -/
def matchH3 : List Char → Option (List Char)
  | '#' :: '#' :: '#' :: a => matchHeadingAfter a
  | _ => none

/-- `line.match(/^##\s+(.+?)\s*$/)`: the capture group when the line is a
second-level heading.  (A `###` line never matches: after the two hashes
the next character is `#`, not whitespace.) -/
def matchH2 : List Char → Option (List Char)
  | '#' :: '#' :: a => matchHeadingAfter a
  | _ => none

/-- Loop body of `findNearestCategory`: scan indices `index-1, ..., 0`
downward for the first second-level heading. -/
def findNearestCategoryGo (lines : List (List Char)) : Nat → List Char
  | 0 => "Uncategorized".toList
  | k + 1 =>
    match matchH2 (lines.getD k []) with
    | some cap => trim cap
    | none => findNearestCategoryGo lines k

/-- `findNearestCategory` from `src/app.js`. -/
def findNearestCategory (lines : List (List Char)) (index : Nat) : List Char :=
  findNearestCategoryGo lines index

/-- One parsed table row (fields in the order network, address, explorer,
args, salt). -/
structure Row where
  network : List Char
  address : List Char
  explorer : List Char
  args : List Char
  salt : List Char
deriving DecidableEq

/-- One parsed entry (fields in the order category, title, rows). -/
structure Entry where
  category : List Char
  title : List Char
  rows : List Row
deriving DecidableEq

/-- The record returned by `parseMarkdown` (fields in the order entries,
networks, categories). -/
structure ParseResult where
  entries : List Entry
  networks : List (List Char)
  categories : List (List Char)
deriving DecidableEq

/-- `Set.prototype.add`: JavaScript sets keep insertion order and ignore
duplicates; modelled as a duplicate-free list. -/
def addSet (s : List (List Char)) (x : List Char) : List (List Char) :=
  if x ∈ s then s else s ++ [x]

/-- The row object literal built in `parseMarkdown` from the first five
cells (network, address, explorer, args, salt). -/
def rowOfCells (cells : List (List Char)) : Row :=
  ⟨cells.getD 0 [], cells.getD 1 [], cells.getD 2 [], cells.getD 3 [], cells.getD 4 []⟩

/-- `/^\|/.test(row)`: the row starts with a pipe. -/
def pipeStart : List Char → Bool
  | '|' :: _ => true
  | _ => false

/-- `/^\s*$/.test(line)`: the line is blank. -/
def isBlankLine (l : List Char) : Bool := l.all isWS

/-- The inner table loop of `parseMarkdown`: consume consecutive
pipe-prefixed lines from index `j`, dropping rows with fewer than five
cells, adding each kept row's non-empty network to the network set.  The
fuel argument bounds the number of iterations; the cursor advances on
every iteration, so `lines.length` fuel always suffices. -/
def consumeRows (lines : List (List Char)) :
    Nat → Nat → List (List Char) → List Row → Nat × List (List Char) × List Row
  | 0, j, networks, rows => (j, networks, rows)
  | fuel + 1, j, networks, rows =>
    if j < lines.length then
      if pipeStart (lines.getD j []) = true then
        let cells := splitMarkdownRow (lines.getD j [])
        if 5 ≤ cells.length then
          consumeRows lines fuel (j + 1)
            (if (rowOfCells cells).network.isEmpty then networks
             else addSet networks (rowOfCells cells).network)
            (rows ++ [rowOfCells cells])
        else consumeRows lines fuel (j + 1) networks rows
      else (j, networks, rows)
    else (j, networks, rows)

/-- The blank-line skipping loop of `parseMarkdown` (`while (j < len &&
blank) j++`), with the same fuel convention as `consumeRows`. -/
def skipBlanks (lines : List (List Char)) : Nat → Nat → Nat
  | 0, j => j
  | fuel + 1, j =>
    if j < lines.length ∧ isBlankLine (lines.getD j []) = true then
      skipBlanks lines fuel (j + 1)
    else j

/-- The main `while` loop of `parseMarkdown`.  On a third-level heading the
category is added to the category set before the table lookahead; when a
recognized header follows, the separator line is skipped unconditionally,
the table rows are consumed and the entry is pushed; otherwise the cursor
moves to the next line.  The fuel argument bounds the number of loop
iterations; the cursor strictly advances, so `lines.length` always
suffices. -/
def parseLoop (lines : List (List Char)) :
    Nat → Nat → List Entry → List (List Char) → List (List Char) → ParseResult
  | 0, _, entries, networks, categories => ⟨entries, networks, categories⟩
  | fuel + 1, i, entries, networks, categories =>
    if i < lines.length then
      match matchH3 (lines.getD i []) with
      | some cap =>
        let category := findNearestCategory lines i
        let categories2 := addSet categories category
        let j := skipBlanks lines lines.length (i + 1)
        if j < lines.length ∧ hasHeader (lines.getD j []) = true then
          let r := consumeRows lines lines.length (j + 2) networks []
          parseLoop lines fuel r.1 (entries ++ [⟨category, trim cap, r.2.2⟩]) r.2.1 categories2
        else parseLoop lines fuel (i + 1) entries networks categories2
      | none => parseLoop lines fuel (i + 1) entries networks categories
    else ⟨entries, networks, categories⟩

/-- `parseMarkdown` from `src/app.js`. -/
def parseMarkdown (md : List Char) : ParseResult :=
  parseLoop (splitLines md) (splitLines md).length 0 [] [] []

/-- The example document of the specification (section 8). -/
def doc2 : List Char :=
  ("## Tokens\n### MyToken\n| Network | Address | Explorer | Constructor Args | Salt |\n|---|---|---|---|---|\n| mainnet | 0x1 | [x](http://e/1) | () | 0x0 |\n| testnet | 0x2 | none | (1,2) | 0x1 |").toList

/-- A document with a third-level heading that is not followed by a
table. -/
def doc1cx : List Char := ("### Orphan\nplain text").toList

/-- A minimal document with one entry and an empty table. -/
def docW : List Char := ("### T\n| Network | Address |").toList

/-- A document whose third-level heading line is `###` followed by two
spaces, followed by a complete table. -/
def doc7cx : List Char :=
  ("###  \n| Network | Address | Explorer | Constructor Args | Salt |\n|---|---|---|---|---|\n| m | a | e | c | s |").toList

/-- Line list for witness instances: a heading followed by a paragraph. -/
def linesC3 : List (List Char) := ["### A".toList, "nope".toList]

/-- Line list for witness instances: one four-cell table row. -/
def linesC4 : List (List Char) := ["| a | b | c | d |".toList]

/-- Line list for witness instances: a heading followed by a recognized
table header. -/
def linesC4b : List (List Char) := ["### T".toList, "| Network | Address |".toList]

/-- Line list for witness instances: a second-level heading above a
third-level heading. -/
def linesC5 : List (List Char) := ["## A".toList, "### B".toList]

/-- Line list for witness instances: one five-cell table row. -/
def linesC10 : List (List Char) := ["| a | b | c | d | e |".toList]

/-! ### Helper lemmas -/

theorem mem_addSet (s : List (List Char)) (y x : List Char) :
    x ∈ addSet s y ↔ x ∈ s ∨ x = y := by
  unfold addSet
  split
  · constructor
    · exact Or.inl
    · rintro (h | rfl) <;> assumption
  · simp [List.mem_append]

theorem skipBlanks_ge (lines : List (List Char)) :
    ∀ fuel j, j ≤ skipBlanks lines fuel j := by
  intro fuel
  induction fuel with
  | zero => intro j; exact Nat.le_refl j
  | succ fuel ih =>
    intro j
    rw [skipBlanks]
    split
    · exact Nat.le_trans (Nat.le_succ j) (ih (j + 1))
    · exact Nat.le_refl j

theorem consumeRows_ge (lines : List (List Char)) :
    ∀ fuel j networks rows, j ≤ (consumeRows lines fuel j networks rows).1 := by
  intro fuel
  induction fuel with
  | zero => intro j nw rows; exact Nat.le_refl j
  | succ fuel ih =>
    intro j nw rows
    rw [consumeRows]
    split
    · split
      · simp only
        split
        · exact Nat.le_trans (Nat.le_succ j) (ih (j + 1) _ _)
        · exact Nat.le_trans (Nat.le_succ j) (ih (j + 1) _ _)
      · exact Nat.le_refl j
    · exact Nat.le_refl j

theorem parseLoop_fuel_step (lines : List (List Char)) :
    ∀ fuel i entries networks categories, lines.length - i ≤ fuel →
      parseLoop lines (fuel + 1) i entries networks categories =
        parseLoop lines fuel i entries networks categories := by
  intro fuel
  induction fuel with
  | zero =>
    intro i e nw c h
    have hi : ¬ i < lines.length := by omega
    rw [parseLoop, parseLoop, if_neg hi]
  | succ fuel ih =>
    intro i e nw c h
    by_cases hi : i < lines.length
    · rw [parseLoop]
      conv_rhs => rw [parseLoop]
      rw [if_pos hi, if_pos hi]
      cases hm : matchH3 (lines.getD i []) with
      | none =>
        exact ih (i + 1) e nw c (by omega)
      | some cap =>
        simp only
        split
        · apply ih
          have h1 : i + 1 ≤ skipBlanks lines lines.length (i + 1) :=
            skipBlanks_ge lines lines.length (i + 1)
          have h2 : skipBlanks lines lines.length (i + 1) + 2 ≤
              (consumeRows lines lines.length (skipBlanks lines lines.length (i + 1) + 2) nw []).1 :=
            consumeRows_ge lines lines.length _ nw []
          omega
        · exact ih (i + 1) e nw _ (by omega)
    · rw [parseLoop]
      conv_rhs => rw [parseLoop]
      rw [if_neg hi, if_neg hi]

theorem consumeRows_facets (lines : List (List Char)) (q : List Char → Prop) :
    ∀ fuel j networks rows,
      (∀ x, x ∈ networks ↔ (q x ∨ (x ≠ [] ∧ ∃ r ∈ rows, r.network = x))) →
      ∀ x, x ∈ (consumeRows lines fuel j networks rows).2.1 ↔
        (q x ∨ (x ≠ [] ∧ ∃ r ∈ (consumeRows lines fuel j networks rows).2.2, r.network = x)) := by
  intro fuel
  induction fuel with
  | zero => intro j nw rows h x; exact h x
  | succ fuel ih =>
    intro j nw rows h x
    rw [consumeRows]
    split
    · split
      · simp only
        split
        · apply ih
          intro y
          by_cases hn : (rowOfCells (splitMarkdownRow (lines.getD j []))).network.isEmpty = true
          · rw [if_pos hn, h y]
            have hobj : (rowOfCells (splitMarkdownRow (lines.getD j []))).network = [] :=
              List.isEmpty_iff.mp hn
            constructor
            · rintro (hq | ⟨hy, r, hr, hry⟩)
              · exact Or.inl hq
              · exact Or.inr ⟨hy, r, List.mem_append_left _ hr, hry⟩
            · rintro (hq | ⟨hy, r, hr, hry⟩)
              · exact Or.inl hq
              · rcases List.mem_append.mp hr with h1 | h1
                · exact Or.inr ⟨hy, r, h1, hry⟩
                · exact absurd (hry ▸ (List.mem_singleton.mp h1 ▸ hobj : r.network = [])).symm
                    (Ne.symm hy)
          · rw [if_neg hn, mem_addSet, h y]
            have hobj : (rowOfCells (splitMarkdownRow (lines.getD j []))).network ≠ [] := by
              intro hh
              exact hn (List.isEmpty_iff.mpr hh)
            constructor
            · rintro ((hq | ⟨hy, r, hr, hry⟩) | rfl)
              · exact Or.inl hq
              · exact Or.inr ⟨hy, r, List.mem_append_left _ hr, hry⟩
              · exact Or.inr ⟨hobj, _, List.mem_append_right _ (List.mem_singleton_self _), rfl⟩
            · rintro (hq | ⟨hy, r, hr, hry⟩)
              · exact Or.inl (Or.inl hq)
              · rcases List.mem_append.mp hr with h1 | h1
                · exact Or.inl (Or.inr ⟨hy, r, h1, hry⟩)
                · exact Or.inr (hry ▸ congrArg Row.network (List.mem_singleton.mp h1))
        · apply ih
          exact h
      · exact h x
    · exact h x

theorem parseLoop_facets (lines : List (List Char)) :
    ∀ fuel i entries networks categories,
      (∀ x, x ∈ networks ↔ (x ≠ [] ∧ ∃ e ∈ entries, ∃ r ∈ e.rows, r.network = x)) →
      (∀ e ∈ entries, e.category ∈ categories) →
      ((∀ x, x ∈ (parseLoop lines fuel i entries networks categories).networks ↔
          (x ≠ [] ∧ ∃ e ∈ (parseLoop lines fuel i entries networks categories).entries,
            ∃ r ∈ e.rows, r.network = x)) ∧
       (∀ e ∈ (parseLoop lines fuel i entries networks categories).entries,
          e.category ∈ (parseLoop lines fuel i entries networks categories).categories)) := by
  intro fuel
  induction fuel with
  | zero => intro i e nw cats h1 h2; exact ⟨h1, h2⟩
  | succ fuel ih =>
    intro i e nw cats h1 h2
    rw [parseLoop]
    split
    · cases hm : matchH3 (lines.getD i []) with
      | none => exact ih (i + 1) e nw cats h1 h2
      | some cap =>
        simp only
        split
        · apply ih
          · have hcf := consumeRows_facets lines
              (fun x => x ≠ [] ∧ ∃ en ∈ e, ∃ r ∈ en.rows, r.network = x)
              lines.length (skipBlanks lines lines.length (i + 1) + 2) nw []
              (by
                intro x
                rw [h1 x]
                constructor
                · exact Or.inl
                · rintro (hq | ⟨_, r, hr, _⟩)
                  · exact hq
                  · exact absurd hr (List.not_mem_nil r))
            intro x
            rw [hcf x]
            constructor
            · rintro (⟨hx, en, hen, r, hr, hrx⟩ | ⟨hx, r, hr, hrx⟩)
              · exact ⟨hx, en, List.mem_append_left _ hen, r, hr, hrx⟩
              · exact ⟨hx, _, List.mem_append_right _ (List.mem_singleton_self _), r, hr, hrx⟩
            · rintro ⟨hx, en, hen, r, hr, hrx⟩
              rcases List.mem_append.mp hen with h3 | h3
              · exact Or.inl ⟨hx, en, h3, r, hr, hrx⟩
              · rw [List.mem_singleton.mp h3] at hr
                exact Or.inr ⟨hx, r, hr, hrx⟩
          · intro en hen
            rcases List.mem_append.mp hen with h3 | h3
            · exact (mem_addSet _ _ _).mpr (Or.inl (h2 en h3))
            · rw [List.mem_singleton.mp h3]
              exact (mem_addSet _ _ _).mpr (Or.inr rfl)
        · apply ih (i + 1) e nw _ h1
          intro en hen
          exact (mem_addSet _ _ _).mpr (Or.inl (h2 en hen))
    · exact ⟨h1, h2⟩

theorem dropWhile_append_all (p : Char → Bool) (w x : List Char) (h : w.all p = true) :
    (w ++ x).dropWhile p = x.dropWhile p := by
  induction w with
  | nil => rfl
  | cons c cs ih =>
    rw [List.all_cons, Bool.and_eq_true] at h
    simp only [List.cons_append, List.dropWhile_cons, h.1, if_true]
    exact ih h.2

theorem trim_append_left (w x : List Char) (h : w.all isWS = true) :
    trim (w ++ x) = trim x := by
  unfold trim
  rw [dropWhile_append_all isWS w x h]

theorem trim_append_right (x t : List Char) (h : t.all isWS = true) :
    trim (x ++ t) = trim x := by
  unfold trim
  rw [List.dropWhile_append]
  split
  · rename_i hx
    have hxall : ∀ c ∈ x, isWS c = true := List.dropWhile_eq_nil_iff.mp (List.isEmpty_iff.mp hx)
    have ht : t.dropWhile isWS = [] :=
      List.dropWhile_eq_nil_iff.mpr (fun c hc => List.all_eq_true.mp h c hc)
    rw [ht, List.isEmpty_iff.mp hx]
  · rw [List.reverse_append, dropWhile_append_all isWS t.reverse _ (by rw [List.all_reverse]; exact h)]

theorem lazyDotThenWS_sound :
    ∀ b g, lazyDotThenWS b = some g →
      ∃ t, b = g ++ t ∧ g ≠ [] ∧ g.all isDot = true ∧ t.all isWS = true := by
  intro b
  induction b with
  | nil => intro g h; cases h
  | cons c rest ih =>
    intro g h
    rw [lazyDotThenWS] at h
    by_cases hc : isDot c = true
    · rw [if_pos hc] at h
      by_cases hr : rest.all isWS = true
      · rw [if_pos hr] at h
        cases h
        exact ⟨rest, rfl, by simp, by simp [hc], hr⟩
      · rw [if_neg hr] at h
        cases hlz : lazyDotThenWS rest with
        | none => rw [hlz] at h; cases h
        | some g' =>
          rw [hlz] at h
          cases h
          obtain ⟨t, ht, hg', hgd, htw⟩ := ih g' hlz
          exact ⟨t, by rw [ht]; rfl, by simp, by simp [hc, hgd], htw⟩
    · rw [if_neg hc] at h; cases h

theorem tryW_sound :
    ∀ wsRev b g, tryW wsRev b = some g →
      ∃ k, k < wsRev.length ∧ lazyDotThenWS ((wsRev.take k).reverse ++ b) = some g := by
  intro wsRev
  induction wsRev with
  | nil => intro b g h; cases h
  | cons w ws ih =>
    intro b g h
    cases ws with
    | nil =>
      rw [tryW] at h
      exact ⟨0, by simp, h⟩
    | cons w2 ws' =>
      change (match lazyDotThenWS b with
              | some g0 => some g0
              | none => tryW (w2 :: ws') (w :: b)) = some g at h
      cases hlz : lazyDotThenWS b with
      | some g0 =>
        rw [hlz] at h
        cases h
        exact ⟨0, by simp, hlz⟩
      | none =>
        rw [hlz] at h
        obtain ⟨k, hk, hl⟩ := ih (w :: b) g h
        refine ⟨k + 1, by simp only [List.length_cons] at hk ⊢; omega, ?_⟩
        rw [List.take_succ_cons, List.reverse_cons, List.append_assoc]
        exact hl

theorem matchH3_inv (line cap : List Char) (h : matchH3 line = some cap) :
    ∃ a, line = '#' :: '#' :: '#' :: a ∧ matchHeadingAfter a = some cap := by
  rw [matchH3.eq_def] at h
  split at h
  · exact ⟨_, rfl, h⟩
  · cases h

theorem matchH2_inv (line cap : List Char) (h : matchH2 line = some cap) :
    ∃ a, line = '#' :: '#' :: a ∧ matchHeadingAfter a = some cap := by
  rw [matchH2.eq_def] at h
  split at h
  · exact ⟨_, rfl, h⟩
  · cases h

/-- Core characterization of the heading regex `\s+(.+?)\s*$`: a successful
match splits the text into a non-empty whitespace prefix, the capture, and
a whitespace suffix, and the trimmed capture equals the trimmed text. -/
theorem matchHeadingAfter_sound (a cap : List Char) (h : matchHeadingAfter a = some cap) :
    ∃ v t, a = v ++ cap ++ t ∧ v ≠ [] ∧ v.all isWS = true ∧ t.all isWS = true ∧
      cap ≠ [] ∧ trim cap = trim a := by
  rw [matchHeadingAfter] at h
  by_cases hp : (a.takeWhile isWS).isEmpty = true
  · rw [if_pos hp] at h; cases h
  · rw [if_neg hp] at h
    obtain ⟨k, hk, hlz⟩ := tryW_sound _ _ _ h
    obtain ⟨t, heq, hcapne, _, htws⟩ := lazyDotThenWS_sound _ _ hlz
    have hsplit : a.takeWhile isWS =
        ((a.takeWhile isWS).reverse.drop k).reverse ++ ((a.takeWhile isWS).reverse.take k).reverse := by
      rw [← List.reverse_append, List.take_append_drop, List.reverse_reverse]
    have ha : a = ((a.takeWhile isWS).reverse.drop k).reverse ++
        (((a.takeWhile isWS).reverse.take k).reverse ++ a.dropWhile isWS) := by
      rw [← List.append_assoc, ← hsplit, List.takeWhile_append_dropWhile]
    refine ⟨((a.takeWhile isWS).reverse.drop k).reverse, t, ?_, ?_, ?_, htws, hcapne, ?_⟩
    · rw [List.append_assoc, ← heq]
      exact ha
    · intro hv
      have : (a.takeWhile isWS).reverse.length - k = 0 := by
        have := congrArg List.length hv
        simpa using this
      have hklen : k < (a.takeWhile isWS).reverse.length := by simpa using hk
      omega
    · rw [List.all_reverse]
      refine List.all_eq_true.mpr (fun c hc => ?_)
      exact List.mem_takeWhile_imp ((List.mem_reverse).mp (List.mem_of_mem_drop hc))
    · have h1 : trim a = trim (cap ++ t) := by
        conv_lhs => rw [ha, heq]
        refine trim_append_left _ _ ?_
        rw [List.all_reverse]
        refine List.all_eq_true.mpr (fun c hc => ?_)
        exact List.mem_takeWhile_imp ((List.mem_reverse).mp (List.mem_of_mem_drop hc))
      rw [h1, trim_append_right _ _ htws]

theorem cleanCells_getD :
    ∀ (l : List (List Char)) (k i : Nat),
      (cleanCells k l).getD i [] =
        if k + i = 2 then
          (match extractParen (l.getD i []) with
           | some m => m
           | none => l.getD i [])
        else l.getD i [] := by
  intro l
  induction l with
  | nil =>
    intro k i
    simp only [cleanCells, List.getD_nil]
    split
    · rfl
    · rfl
  | cons c rest ih =>
    intro k i
    cases i with
    | zero =>
      simp only [cleanCells, List.getD_cons_zero, Nat.add_zero]
    | succ i2 =>
      simp only [cleanCells, List.getD_cons_succ]
      rw [ih (k + 1) i2]
      have hcond : k + 1 + i2 = k + (i2 + 1) := by omega
      rw [hcond]

/-! ### Claims -/

/-- C2: parsing the specification's example document yields exactly one
entry (category Tokens, title MyToken, two rows in document order), the
network facet set in insertion order mainnet then testnet, and the
category facet set Tokens. -/
theorem c2_example_document :
    parseMarkdown doc2 =
      ⟨[⟨"Tokens".toList, "MyToken".toList,
         [⟨"mainnet".toList, "0x1".toList, "http://e/1".toList, "()".toList, "0x0".toList⟩,
          ⟨"testnet".toList, "0x2".toList, "none".toList, "(1,2)".toList, "0x1".toList⟩]⟩],
       ["mainnet".toList, "testnet".toList],
       ["Tokens".toList]⟩ := by decide

/-- C3: when a third-level heading at index i is not followed (after blank
lines) by a recognized table header, the loop step emits no entry and
leaves the network set untouched, only records the heading's category, and
resumes scanning at the line immediately after the heading, so later
headings are processed by the same continuation. -/
theorem c3_heading_without_table (lines : List (List Char)) (fuel i : Nat)
    (entries : List Entry) (networks categories : List (List Char)) (cap : List Char)
    (h1 : i < lines.length)
    (h2 : matchH3 (lines.getD i []) = some cap)
    (h3 : ¬ (skipBlanks lines lines.length (i + 1) < lines.length ∧
             hasHeader (lines.getD (skipBlanks lines lines.length (i + 1)) []) = true)) :
    parseLoop lines (fuel + 1) i entries networks categories =
      parseLoop lines fuel (i + 1) entries networks
        (addSet categories (findNearestCategory lines i)) := by
  rw [parseLoop, if_pos h1, h2]
  simp only
  rw [if_neg h3]

/-- C3 witness: a concrete heading followed by a paragraph. -/
theorem c3_heading_without_table_witness :
    parseLoop linesC3 1 0 [] [] [] =
      parseLoop linesC3 0 1 [] [] (addSet [] (findNearestCategory linesC3 0)) :=
  c3_heading_without_table linesC3 0 0 [] [] [] ("A".toList) (by decide) (by decide) (by decide)

/-- C5: the category of an entry headed at a given index is resolved by a
backward scan: it is the sentinel Uncategorized when no line below the
index matches the second-level heading pattern, and otherwise the trimmed
capture of the nearest such line below the index. -/
theorem c5_category_resolution :
    (∀ (lines : List (List Char)) (index : Nat),
       (∀ k, k < index → matchH2 (lines.getD k []) = none) →
       findNearestCategory lines index = "Uncategorized".toList) ∧
    (∀ (lines : List (List Char)) (index k : Nat) (cap : List Char),
       k < index → matchH2 (lines.getD k []) = some cap →
       (∀ m, k < m → m < index → matchH2 (lines.getD m []) = none) →
       findNearestCategory lines index = trim cap) := by
  constructor
  · intro lines index
    induction index with
    | zero => intro _; rfl
    | succ n ih =>
      intro h
      unfold findNearestCategory at *
      rw [findNearestCategoryGo, h n (Nat.lt_succ_self n)]
      exact ih (fun k hk => h k (Nat.lt_succ_of_lt hk))
  · intro lines index
    induction index with
    | zero =>
      intro k cap hk
      exact absurd hk (Nat.not_lt_zero k)
    | succ n ih =>
      intro k cap hk hm hnone
      by_cases hkn : k = n
      · subst hkn
        unfold findNearestCategory
        rw [findNearestCategoryGo, hm]
      · have hk2 : k < n := by omega
        unfold findNearestCategory at *
        rw [findNearestCategoryGo, hnone n (by omega) (Nat.lt_succ_self n)]
        exact ih k cap hk2 hm (fun m hm1 hm2 => hnone m hm1 (by omega))

/-- C5 witness: both conjuncts at concrete inputs. -/
theorem c5_category_resolution_witness :
    findNearestCategory linesC5 0 = "Uncategorized".toList ∧
    findNearestCategory linesC5 2 = trim ("A".toList) :=
  ⟨c5_category_resolution.1 linesC5 0 (fun k hk => absurd hk (Nat.not_lt_zero k)),
   c5_category_resolution.2 linesC5 2 0 ("A".toList) (by decide) (by decide)
     (fun m hm1 hm2 => by
       have hm3 : m = 1 := by omega
       subst hm3
       decide)⟩

/-- C6: splitMarkdownRow passes every cell except the third through as its
trimmed raw text, replaces the third cell by the contents of its first
parenthesised group when one exists (and keeps it unchanged otherwise),
and on the specification's two example cells produces the extracted URL
and the unchanged text respectively. -/
theorem c6_explorer_normalization :
    (∀ (row : List Char) (i : Nat), i ≠ 2 →
       (splitMarkdownRow row).getD i [] = (rawCells row).getD i []) ∧
    (∀ row : List Char,
       (splitMarkdownRow row).getD 2 [] =
         (match extractParen ((rawCells row).getD 2 []) with
          | some m => m
          | none => (rawCells row).getD 2 [])) ∧
    splitMarkdownRow ("| a | b | [Etherscan](https://etherscan.io/address/0xABC) | d | e |".toList) =
      ["a".toList, "b".toList, "https://etherscan.io/address/0xABC".toList,
       "d".toList, "e".toList] ∧
    splitMarkdownRow ("| a | b | n/a | d | e |".toList) =
      ["a".toList, "b".toList, "n/a".toList, "d".toList, "e".toList] := by
  refine ⟨?_, ?_, by decide, by decide⟩
  · intro row i hi
    unfold splitMarkdownRow
    rw [cleanCells_getD (rawCells row) 0 i, if_neg (by omega : ¬ 0 + i = 2)]
  · intro row
    unfold splitMarkdownRow
    rw [cleanCells_getD (rawCells row) 0 2]
    rfl

/-- C6 witness: the general conjuncts instantiated at a concrete row. -/
theorem c6_explorer_normalization_witness :
    (splitMarkdownRow ("| a | b | n/a | d | e |".toList)).getD 0 [] =
      (rawCells ("| a | b | n/a | d | e |".toList)).getD 0 [] :=
  c6_explorer_normalization.1 ("| a | b | n/a | d | e |".toList) 0 (by omega)

/-- C4: a table row line whose normalization yields fewer than five cells
is skipped without extending the row list or network set while the cursor
still advances past it; and whenever a heading with a recognized table
header is processed, an entry is pushed regardless of which rows survived,
with scanning resuming after the consumed table. -/
theorem c4_short_row_dropped :
    (∀ (lines : List (List Char)) (fuel j : Nat)
        (networks : List (List Char)) (rows : List Row),
       j < lines.length →
       pipeStart (lines.getD j []) = true →
       (splitMarkdownRow (lines.getD j [])).length < 5 →
       consumeRows lines (fuel + 1) j networks rows =
         consumeRows lines fuel (j + 1) networks rows) ∧
    (∀ (lines : List (List Char)) (fuel i : Nat) (entries : List Entry)
        (networks categories : List (List Char)) (cap : List Char),
       i < lines.length →
       matchH3 (lines.getD i []) = some cap →
       (skipBlanks lines lines.length (i + 1) < lines.length ∧
        hasHeader (lines.getD (skipBlanks lines lines.length (i + 1)) []) = true) →
       ∃ rows2 networks2,
         parseLoop lines (fuel + 1) i entries networks categories =
           parseLoop lines fuel
             (consumeRows lines lines.length
               (skipBlanks lines lines.length (i + 1) + 2) networks []).1
             (entries ++ [⟨findNearestCategory lines i, trim cap, rows2⟩]) networks2
             (addSet categories (findNearestCategory lines i))) := by
  constructor
  · intro lines fuel j nw rows hj hp hlen
    rw [consumeRows, if_pos hj, if_pos hp]
    simp only
    rw [if_neg (by omega : ¬ 5 ≤ (splitMarkdownRow (lines.getD j [])).length)]
  · intro lines fuel i e nw cats cap h1 h2 h3
    refine ⟨(consumeRows lines lines.length
               (skipBlanks lines lines.length (i + 1) + 2) nw []).2.2,
            (consumeRows lines lines.length
               (skipBlanks lines lines.length (i + 1) + 2) nw []).2.1, ?_⟩
    rw [parseLoop, if_pos h1, h2]
    simp only
    rw [if_pos h3]

/-- C4 witness: both conjuncts at concrete inputs (a four-cell row, and a
heading with a recognized header and no surviving rows). -/
theorem c4_short_row_dropped_witness :
    (consumeRows linesC4 1 0 [] [] = consumeRows linesC4 0 1 [] []) ∧
    (∃ rows2 networks2,
       parseLoop linesC4b 1 0 [] [] [] =
         parseLoop linesC4b 0
           (consumeRows linesC4b linesC4b.length
             (skipBlanks linesC4b linesC4b.length 1 + 2) [] []).1
           ([] ++ [⟨findNearestCategory linesC4b 0, trim ("T".toList), rows2⟩]) networks2
           (addSet [] (findNearestCategory linesC4b 0))) :=
  ⟨c4_short_row_dropped.1 linesC4 0 0 [] [] (by decide) (by decide) (by decide),
   c4_short_row_dropped.2 linesC4b 0 0 [] [] [] ("T".toList) (by decide) (by decide)
     (by decide)⟩

/-- C10: the row object built from a normalized cell list depends only on
the first five cells, and a row line with at least five cells contributes
exactly that object (its network updating the network set only through
cell 0) while the cursor advances, so cells at positions five and beyond
are discarded. -/
theorem c10_extra_cells_ignored :
    (∀ cells : List (List Char), rowOfCells cells = rowOfCells (cells.take 5)) ∧
    (∀ (lines : List (List Char)) (fuel j : Nat)
        (networks : List (List Char)) (rows : List Row),
       j < lines.length →
       pipeStart (lines.getD j []) = true →
       5 ≤ (splitMarkdownRow (lines.getD j [])).length →
       consumeRows lines (fuel + 1) j networks rows =
         consumeRows lines fuel (j + 1)
           (if (rowOfCells (splitMarkdownRow (lines.getD j []))).network.isEmpty then networks
            else addSet networks (rowOfCells (splitMarkdownRow (lines.getD j []))).network)
           (rows ++ [rowOfCells (splitMarkdownRow (lines.getD j []))])) := by
  constructor
  · intro cells
    rcases cells with _ | ⟨a, _ | ⟨b, _ | ⟨c, _ | ⟨d, _ | ⟨e2, rest⟩⟩⟩⟩⟩ <;> rfl
  · intro lines fuel j nw rows hj hp hlen
    rw [consumeRows, if_pos hj, if_pos hp]
    simp only
    rw [if_pos hlen]

/-- C10 witness: both conjuncts at concrete inputs. -/
theorem c10_extra_cells_ignored_witness :
    (rowOfCells ["a".toList, "b".toList, "c".toList, "d".toList, "e".toList,
                 "f".toList, "g".toList] =
       rowOfCells (["a".toList, "b".toList, "c".toList, "d".toList, "e".toList,
                    "f".toList, "g".toList].take 5)) ∧
    (consumeRows linesC10 1 0 [] [] =
       consumeRows linesC10 0 1
         (if (rowOfCells (splitMarkdownRow (linesC10.getD 0 []))).network.isEmpty then []
          else addSet [] (rowOfCells (splitMarkdownRow (linesC10.getD 0 []))).network)
         ([] ++ [rowOfCells (splitMarkdownRow (linesC10.getD 0 []))])) :=
  ⟨c10_extra_cells_ignored.1
     ["a".toList, "b".toList, "c".toList, "d".toList, "e".toList, "f".toList, "g".toList],
   c10_extra_cells_ignored.2 linesC10 0 0 [] [] (by decide) (by decide) (by decide)⟩

/-- C1 counterexample: the document with a heading and no table yields no
entries, yet its category facet set is non-empty, so the category facet
set is not the set of distinct categories of the emitted entries. -/
theorem c1_facet_sets_counterexample :
    (parseMarkdown doc1cx).entries = [] ∧
    (parseMarkdown doc1cx).categories = ["Uncategorized".toList] := by decide

/-- C1 (amended): the network facet set equals the set of distinct
non-empty network values of the rows of emitted entries, and the category
facet set contains the category of every emitted entry (it may also
contain categories of recognized headings that produced no entry). -/
theorem c1_facet_sets (md : List Char) :
    (∀ x, x ∈ (parseMarkdown md).networks ↔
       (x ≠ [] ∧ ∃ e ∈ (parseMarkdown md).entries, ∃ r ∈ e.rows, r.network = x)) ∧
    (∀ e ∈ (parseMarkdown md).entries, e.category ∈ (parseMarkdown md).categories) := by
  refine parseLoop_facets (splitLines md) (splitLines md).length 0 [] [] [] ?_ ?_
  · intro x
    simp
  · intro e he
    simp at he

/-- C1 witness: both conjuncts at concrete documents. -/
theorem c1_facet_sets_witness :
    ("mainnet".toList ≠ [] ∧ ∃ e ∈ (parseMarkdown doc2).entries,
       ∃ r ∈ e.rows, r.network = "mainnet".toList) ∧
    (⟨"Uncategorized".toList, "T".toList, []⟩ : Entry).category ∈
      (parseMarkdown docW).categories :=
  ⟨((c1_facet_sets doc2).1 ("mainnet".toList)).mp (by decide),
   (c1_facet_sets docW).2 ⟨"Uncategorized".toList, "T".toList, []⟩ (by decide)⟩

/-- C7 counterexample: the line consisting of three hashes and two spaces
is recognized as a third-level heading and introduces an entry whose title
is the empty string, not non-empty trimmed text. -/
theorem c7_heading_counterexample :
    (parseMarkdown doc7cx).entries =
      [⟨"Uncategorized".toList, [],
        [⟨"m".toList, "a".toList, "e".toList, "c".toList, "s".toList⟩]⟩] := by decide

/-- C7 (amended): a line is recognized as a third-level heading only if it
is three hashes followed by a whitespace character and at least one
further character, and the resulting title is the trimmed text after the
hashes — which is empty exactly when that text is all whitespace. -/
theorem c7_heading_title (line cap : List Char) (h : matchH3 line = some cap) :
    ∃ w rest, line = '#' :: '#' :: '#' :: w :: rest ∧ isWS w = true ∧ rest ≠ [] ∧
      trim cap = trim (w :: rest) := by
  obtain ⟨a, rfl, hma⟩ := matchH3_inv _ _ h
  obtain ⟨v, t, hvt, hvne, hvws, htws, hcapne, _⟩ := matchHeadingAfter_sound a cap hma
  cases v with
  | nil => exact absurd rfl hvne
  | cons w v2 =>
    rw [List.all_cons, Bool.and_eq_true] at hvws
    refine ⟨w, v2 ++ (cap ++ t), ?_, hvws.1, ?_, ?_⟩
    · rw [hvt]
      simp [List.append_assoc]
    · intro hh
      rcases List.append_eq_nil.mp hh with ⟨_, h2⟩
      exact hcapne (List.append_eq_nil.mp h2).1
    · have hshape : w :: (v2 ++ (cap ++ t)) = (w :: v2) ++ (cap ++ t) := by simp
      rw [hshape, trim_append_left _ _ (by rw [List.all_cons, Bool.and_eq_true]; exact hvws),
          trim_append_right _ _ htws]

/-- C7 witness: the characterization applied to a concrete heading line. -/
theorem c7_heading_title_witness :
    ∃ w rest, "### A".toList = '#' :: '#' :: '#' :: w :: rest ∧ isWS w = true ∧
      rest ≠ [] ∧ trim ("A".toList) = trim (w :: rest) :=
  c7_heading_title ("### A".toList) ("A".toList) (by decide)

/-- C8: the parser is a pure function of the input text alone — equal
inputs always produce structurally identical results (entries, rows and
facet sets); in this embedding there is no other state it could depend
on. -/
theorem c8_deterministic (md1 md2 : List Char) (h : md1 = md2) :
    parseMarkdown md1 = parseMarkdown md2 :=
  congrArg parseMarkdown h

/-- C8 witness: re-parsing the example document yields identical output. -/
theorem c8_deterministic_witness : parseMarkdown doc2 = parseMarkdown doc2 :=
  c8_deterministic doc2 doc2 rfl

/-- C9: the scan terminates within one loop iteration per line because the
cursor strictly advances — running the loop with any amount of extra fuel
beyond the line count returns the same total result, and the embedding is
a total function that returns a result for every input string. -/
theorem c9_termination (md : List Char) (extra : Nat) :
    parseLoop (splitLines md) ((splitLines md).length + extra) 0 [] [] [] =
      parseMarkdown md := by
  induction extra with
  | zero => rfl
  | succ n ih =>
    rw [← ih]
    exact parseLoop_fuel_step (splitLines md) ((splitLines md).length + n) 0 [] [] []
      (by omega)
